import Mathlib

/-!
Shallow embedding of the littlewolf raycasting engine (src/main.c) and a
verification of the spec's claims about it.

Numeric model: the C program computes with 32-bit floats; the embedding uses
exact arithmetic, `ℚ` for the ray caster, projector and map lookups, and `ℝ`
for the movement code (whose speed clamp takes a square root).  C's
float-to-int conversion truncates toward zero and is modelled by `trunc`.
Comparisons of Euclidean magnitudes (`mag u < mag v` inside `cast`) are
modelled by the equivalent comparisons of squared magnitudes, so that the
caster stays executable over `ℚ`.  An out-of-bounds grid read is undefined
behavior in C and is modelled as `none`.
-/

namespace LW

/-- A 2-D point (struct `Point` of main.c).  The coordinate type is a
parameter so that the same definitions serve the exact-rational model of the
caster and the real-number model of the movement code. -/
structure Point (α : Type) where
  x : α
  y : α
deriving DecidableEq

/-- A pair of points (struct `Line` of main.c). -/
structure Line (α : Type) where
  a : Point α
  b : Point α

/-- Result of a ray cast (struct `Hit` of main.c): the sampled tile value and
the point where the ray stopped. -/
structure Hit where
  tile : ℤ
  where_ : Point ℚ
deriving DecidableEq

/-- Vertical wall span of one screen column (struct `Wall` of main.c). -/
structure Wall where
  top : ℤ
  bot : ℤ
  size : ℚ
deriving DecidableEq

/-- One map layer: rows of tile characters (a `const char**` in main.c). -/
abbrev Grid := List (List Char)

/-- The tile value of a map character: the C expression `c - '0'`. -/
def charToTile (c : Char) : ℤ := (c.toNat : ℤ) - ('0'.toNat : ℤ)

section GenericOps

variable {α : Type} [LinearOrderedField α] [FloorRing α]

/-- `rag` of main.c: rotates a point 90 degrees. -/
def rag (a : Point α) : Point α := ⟨-a.y, a.x⟩

/-- `sub` of main.c. -/
def sub (a b : Point α) : Point α := ⟨a.x - b.x, a.y - b.y⟩

/-- `add` of main.c. -/
def add (a b : Point α) : Point α := ⟨a.x + b.x, a.y + b.y⟩

/-- `mul` of main.c: scales a point. -/
def mul (a : Point α) (n : α) : Point α := ⟨a.x * n, a.y * n⟩

/-- The square of `mag` of main.c (`mag a = sqrt (magSq a)`); the caster only
compares magnitudes, which is equivalent to comparing their squares. -/
def magSq (a : Point α) : α := a.x * a.x + a.y * a.y

/-- `slope` of main.c.  In Lean, division by zero yields `0` where C floats
would produce an infinity; the zero-component direction cases are treated
explicitly in the proofs below. -/
def slope (a : Point α) : α := a.y / a.x

/-- C's float-to-int conversion: truncation toward zero. -/
def trunc (x : α) : ℤ := if 0 ≤ x then ⌊x⌋ else ⌈x⌉

/-- `fl` of main.c: fast floor via truncation plus a comparison correction. -/
def fl (x : α) : ℤ := trunc x - (if x < (trunc x : α) then 1 else 0)

/-- `cl` of main.c: fast ceil via truncation plus a comparison correction. -/
def cl (x : α) : ℤ := trunc x + (if (trunc x : α) < x then 1 else 0)

/-- `dec` of main.c: the fractional part left by truncation. -/
def dec (x : α) : α := x - (trunc x : α)

/-- `sh` of main.c: steps to the nearest vertical grid line ahead in the
direction's x-sign. -/
def sh (a b : Point α) : Point α :=
  let x : α := if 0 < b.x then (fl (a.x + 1) : α) else (cl (a.x - 1) : α)
  ⟨x, slope b * (x - a.x) + a.y⟩

/-- `sv` of main.c: steps to the nearest horizontal grid line ahead in the
direction's y-sign. -/
def sv (a b : Point α) : Point α :=
  let y : α := if 0 < b.y then (fl (a.y + 1) : α) else (cl (a.y - 1) : α)
  ⟨(y - a.y) / slope b + a.x, y⟩

/-- `tile` of main.c: the map lookup `tiles[y][x] - '0'` with both
coordinates truncated toward zero.  A read outside the arrays is undefined
behavior in C and is modelled as `none`. -/
def tile (a : Point α) (tiles : Grid) : Option ℤ :=
  let x := trunc a.x
  let y := trunc a.y
  if 0 ≤ x ∧ 0 ≤ y then
    match tiles.get? y.toNat with
    | some row =>
      match row.get? x.toNat with
      | some c => some (charToTile c)
      | none => none
    | none => none
  else none

end GenericOps

/-- The candidate grid crossing chosen by one step of `cast` (the `ray` local
of main.c): the closer of the horizontal and the vertical crossing, the
vertical one on ties. -/
def stepRay (a b : Point ℚ) : Point ℚ :=
  if magSq (sub (sh a b) a) < magSq (sub (sv a b) a) then sh a b else sv a b

/-- The tiny sampling step added to the chosen crossing before the tile test
(the `dc`/`dx`/`dy` locals of `cast`): the full `0.01 * direction` step at a
corner, otherwise an axis-aligned component chosen by which coordinate of the
crossing is exactly integral. -/
def nudge (a b : Point ℚ) : Point ℚ :=
  let dc := mul b 0.01
  if magSq (sub (sh a b) (sv a b)) < (1e-3 : ℚ) ^ 2 then dc
  else if dec (stepRay a b).x = 0 then ⟨dc.x, 0⟩
  else ⟨0, dc.y⟩

/-- `cast` of main.c with an explicit recursion bound: from `wher`, step to
the next grid-line crossing along `direction`, sample the wall grid at the
nudged crossing, and return the hit or recurse.  `none` models both fuel
exhaustion and an out-of-bounds sample (undefined behavior in C). -/
def castFuel (fuel : ℕ) (wher direction : Point ℚ) (walling : Grid) : Option Hit :=
  match fuel with
  | 0 => none
  | fuel + 1 =>
    let ray := stepRay wher direction
    let test := add ray (nudge wher direction)
    match tile test walling with
    | none => none
    | some t => if t ≠ 0 then some ⟨t, ray⟩ else castFuel fuel ray direction walling

/-- The recursion of `cast` reaches a non-empty tile after finitely many grid
steps and returns its positive tile id. -/
def castReturnsPositive (wher direction : Point ℚ) (walling : Grid) : Prop :=
  ∃ fuel hit, castFuel fuel wher direction walling = some hit ∧ 0 < hit.tile

/-- `pcast` of main.c: the interpolation fraction for floor/ceiling sampling
at screen row `y`. -/
def pcast (size : ℚ) (yres y : ℤ) : ℚ := size / ((2 * (y + 1) - yres : ℤ) : ℚ)

/-- The `normal` local of `project` in main.c: the normal distance of the
corrected ray, clamped below by `1e-2`. -/
def normal (corrected : Point ℚ) : ℚ :=
  if corrected.x < 1e-2 then 1e-2 else corrected.x

/-- The `size` local of `project` in main.c. -/
def wallSize (xres : ℤ) (focal : ℚ) (corrected : Point ℚ) : ℚ :=
  0.5 * focal * (xres : ℚ) / normal corrected

/-- `project` of main.c: clamps the normal distance below by `1e-2`, computes
the wall size `0.5 * focal * xres / normal`, and clamps the truncated
top/bottom rows into the screen.  Note that the `top` field holds the larger
row index and `bot` the smaller one. -/
def project (xres yres : ℤ) (focal : ℚ) (corrected : Point ℚ) : Wall :=
  let size : ℚ := wallSize xres focal corrected
  let top : ℤ := trunc (((yres : ℚ) + size) / 2)
  let bot : ℤ := trunc (((yres : ℚ) - size) / 2)
  ⟨if top > yres then yres else top, if bot < 0 then 0 else bot, size⟩

/-- Rows painted by the flooring pass of `render`
(`for (y = 0; y < wall.bot; y++)`). -/
def floorRows (wall : Wall) : List ℕ := List.range wall.bot.toNat

/-- Rows painted by the wall pass of `render`
(`for (y = wall.bot; y < wall.top; y++)`). -/
def wallRows (wall : Wall) : List ℕ :=
  List.range' wall.bot.toNat (wall.top.toNat - wall.bot.toNat)

/-- Rows painted by the ceiling pass of `render`
(`for (y = wall.top; y < gpu.yres; y++)`). -/
def ceilRows (yres : ℤ) (wall : Wall) : List ℕ :=
  List.range' wall.top.toNat (yres.toNat - wall.top.toNat)

/-- A grid is rectangular with width `w` and height `h`. -/
def RectGrid (g : Grid) (w h : ℕ) : Prop :=
  g.length = h ∧ ∀ row ∈ g, row.length = w

/-- Every tile character of the grid is a digit `'0'..'9'` (the data model of
the spec section 3), stated on the tile values. -/
def DigitGrid (g : Grid) : Prop :=
  ∀ row ∈ g, ∀ c ∈ row, 0 ≤ charToTile c ∧ charToTile c ≤ 9

/-- The character of the grid cell at row `iy`, column `ix` (defaults only
trigger out of bounds). -/
def cellChar (g : Grid) (iy ix : ℕ) : Char :=
  (((g.get? iy).getD []).get? ix).getD '0'

/-- Every tile on the outer border of the grid is non-empty. -/
def SolidBorder (g : Grid) (w h : ℕ) : Prop :=
  ∀ iy < h, ∀ ix < w,
    (iy = 0 ∨ iy = h - 1 ∨ ix = 0 ∨ ix = w - 1) → charToTile (cellChar g iy ix) ≠ 0

/-- A point strictly inside the interior (non-border) region of a `w × h`
grid. -/
def Interior (w h : ℕ) (p : Point ℚ) : Prop :=
  1 < p.x ∧ p.x < (w : ℚ) - 1 ∧ 1 < p.y ∧ p.y < (h : ℚ) - 1

/-- The ceiling layer built by `build` of main.c. -/
def ceiling : Grid :=
  ["111111111111111111111111111111111111111111111",
   "122223223232232111111111111111222232232322321",
   "122222221111232111111111111111222222211112321",
   "122221221232323232323232323232222212212323231",
   "122222221111232111111111111111222222211112321",
   "122223223232232111111111111111222232232322321",
   "111111111111111111111111111111111111111111111"].map String.toList

/-- The walling layer built by `build` of main.c. -/
def walling : Grid :=
  ["111111111111111111111111111111111111111111111",
   "100000000000000111111111111111000000000000001",
   "103330001111000111111111111111033300011110001",
   "103000000000000000000000000000030000030000001",
   "103330001111000111111111111111033300011110001",
   "100000000000000111111111111111000000000000001",
   "111111111111111111111111111111111111111111111"].map String.toList

/-- The flooring layer built by `build` of main.c. -/
def floring : Grid :=
  ["111111111111111111111111111111111111111111111",
   "122223223232232111111111111111222232232322321",
   "122222221111232111111111111111222222211112321",
   "122222221232323323232323232323222222212323231",
   "122222221111232111111111111111222222211112321",
   "122223223232232111111111111111222232232322321",
   "111111111111111111111111111111111111111111111"].map String.toList

/-- `turn` of main.c: rotation by `t` radians. -/
noncomputable def turn (a : Point ℝ) (t : ℝ) : Point ℝ :=
  ⟨a.x * Real.cos t - a.y * Real.sin t, a.x * Real.sin t + a.y * Real.cos t⟩

/-- `mag` of main.c: the Euclidean magnitude. -/
noncomputable def mag (a : Point ℝ) : ℝ := Real.sqrt (a.x * a.x + a.y * a.y)

/-- `unit` of main.c: `mul a (1 / mag a)`. -/
noncomputable def unit (a : Point ℝ) : Point ℝ := mul a (1 / mag a)

/-- The hero state (struct `Hero` of main.c). -/
structure Hero where
  fov : Line ℝ
  where_ : Point ℝ
  velocity : Point ℝ
  speed : ℝ
  acceleration : ℝ
  theta : ℝ

/-- The movement-key state polled by `move` (w, s, d, a). -/
structure Keys where
  w : Bool
  s : Bool
  d : Bool
  a : Bool

/-- The acceleration/deceleration stage of `move` of main.c: with a movement
key held, add or subtract `acceleration`-scaled forward or strafe vectors;
with no key held, decay the velocity by `1 - acceleration / speed`. -/
noncomputable def accelerate (hero : Hero) (key : Keys) : Point ℝ :=
  if key.w || key.s || key.d || key.a then
    let reference : Point ℝ := ⟨1, 0⟩
    let direction := turn reference hero.theta
    let acceleration := mul direction hero.acceleration
    let v1 := if key.w then add hero.velocity acceleration else hero.velocity
    let v2 := if key.s then sub v1 acceleration else v1
    let v3 := if key.d then add v2 (rag acceleration) else v2
    if key.a then sub v3 (rag acceleration) else v3
  else
    mul hero.velocity (1 - hero.acceleration / hero.speed)

/-- The speed-cap stage of `move` of main.c: rescale the velocity to
magnitude `speed` when it exceeds `speed`. -/
noncomputable def clampSpeed (speed : ℝ) (v : Point ℝ) : Point ℝ :=
  if mag v > speed then mul (unit v) speed else v

/-- `move` of main.c: accelerate or decay, cap the speed, tentatively move,
and on a wall collision restore the pre-tick position and zero the velocity.
An out-of-bounds collision sample (undefined behavior in C) is treated as
empty. -/
noncomputable def move (hero : Hero) (walling : Grid) (key : Keys) : Hero :=
  if (tile (add hero.where_ (clampSpeed hero.speed (accelerate hero key))) walling).getD 0 ≠ 0
  then { hero with velocity := ⟨0, 0⟩ }
  else { hero with
         velocity := clampSpeed hero.speed (accelerate hero key)
         where_ := add hero.where_ (clampSpeed hero.speed (accelerate hero key)) }

/-- A concrete hero used to instantiate the movement theorems: the spawn
speed, acceleration and field of view of `born` in main.c, facing
`theta = 0`, standing at `(2.5, 3.5)` with zero velocity. -/
noncomputable def hero0 : Hero :=
  ⟨⟨⟨0.8, -1⟩, ⟨0.8, 1⟩⟩, ⟨2.5, 3.5⟩, ⟨0, 0⟩, 0.1, 0.015, 0⟩

/-- No movement key held. -/
def keys0 : Keys := ⟨false, false, false, false⟩

/-- Per-axis potential for the termination argument of `cast`: the index of
the last grid line passed in the travel direction of the axis.  In the
exact-arithmetic embedding a zero direction component makes `sh`/`sv` step
toward negative infinity on that axis (`0 < b.x` fails and `slope` divisions
yield `0`), so the non-positive branch uses the downward-counting potential. -/
def phi (c x : ℚ) : ℤ := if 0 < c then ⌊x⌋ else -⌈x⌉

/-- The termination measure of `cast`: it strictly increases at every grid
step and is bounded on the grid. -/
def mu (d p : Point ℚ) : ℤ := phi d.x p.x + phi d.y p.y

/-- The region invariant maintained by the recursion of `cast` on a `w × h`
grid: on each axis the position has not yet passed the far border line of its
travel direction, and stays at least one cell away from the near border. -/
def Inv (w h : ℕ) (d p : Point ℚ) : Prop :=
  (0 < d.x → 0 < p.x ∧ p.x < (w : ℚ) - 1) ∧ (d.x ≤ 0 → 1 ≤ p.x ∧ p.x < (w : ℚ)) ∧
  (0 < d.y → 0 < p.y ∧ p.y < (h : ℚ) - 1) ∧ (d.y ≤ 0 → 1 ≤ p.y ∧ p.y < (h : ℚ))

instance (g : Grid) (w h : ℕ) : Decidable (RectGrid g w h) := by
  unfold RectGrid; infer_instance

instance (g : Grid) : Decidable (DigitGrid g) := by
  unfold DigitGrid; infer_instance

instance (g : Grid) (w h : ℕ) : Decidable (SolidBorder g w h) := by
  unfold SolidBorder; infer_instance

instance (w h : ℕ) (p : Point ℚ) : Decidable (Interior w h p) := by
  unfold Interior; infer_instance

section NumLemmas

variable {α : Type} [LinearOrderedField α] [FloorRing α]

lemma trunc_of_nonneg {x : α} (h : 0 ≤ x) : trunc x = ⌊x⌋ := if_pos h

lemma trunc_of_neg {x : α} (h : x < 0) : trunc x = ⌈x⌉ := if_neg (not_le.mpr h)

lemma fl_eq_floor (x : α) : fl x = ⌊x⌋ := by
  unfold fl
  rcases le_or_lt 0 x with h | h
  · rw [trunc_of_nonneg h, if_neg (not_lt.mpr (Int.floor_le x)), sub_zero]
  · rw [trunc_of_neg h]
    by_cases hi : x < (⌈x⌉ : α)
    · rw [if_pos hi]
      have hc : (⌈x⌉ : α) < x + 1 := Int.ceil_lt_add_one x
      symm
      rw [Int.floor_eq_iff]
      constructor
      · push_cast; linarith
      · push_cast; linarith
    · rw [if_neg hi, sub_zero]
      have hx : x = (⌈x⌉ : α) := le_antisymm (Int.le_ceil x) (not_lt.mp hi)
      rw [hx, Int.floor_intCast, Int.ceil_intCast]

lemma cl_eq_ceil (x : α) : cl x = ⌈x⌉ := by
  unfold cl
  rcases le_or_lt 0 x with h | h
  · rw [trunc_of_nonneg h]
    by_cases hi : (⌊x⌋ : α) < x
    · rw [if_pos hi]
      have hfl : x < (⌊x⌋ : α) + 1 := Int.lt_floor_add_one x
      symm
      rw [Int.ceil_eq_iff]
      constructor
      · push_cast; linarith
      · push_cast; linarith
    · rw [if_neg hi, add_zero]
      have hx : x = (⌊x⌋ : α) := le_antisymm (not_lt.mp hi) (Int.floor_le x)
      rw [hx, Int.ceil_intCast, Int.floor_intCast]
  · rw [trunc_of_neg h, if_neg (not_lt.mpr (Int.le_ceil x)), add_zero]

lemma trunc_mono {x y : α} (h : x ≤ y) : trunc x ≤ trunc y := by
  rcases le_or_lt 0 x with hx | hx
  · rw [trunc_of_nonneg hx, trunc_of_nonneg (hx.trans h)]
    exact Int.floor_le_floor h
  · rcases le_or_lt 0 y with hy | hy
    · rw [trunc_of_neg hx, trunc_of_nonneg hy]
      exact (Int.ceil_le.mpr (show x ≤ ((0 : ℤ) : α) by exact_mod_cast hx.le)).trans
        (Int.le_floor.mpr (show ((0 : ℤ) : α) ≤ y by exact_mod_cast hy))
    · rw [trunc_of_neg hx, trunc_of_neg hy]
      exact Int.ceil_le_ceil h

lemma trunc_le_self {x : α} (h : 0 ≤ x) : (trunc x : α) ≤ x := by
  rw [trunc_of_nonneg h]; exact Int.floor_le x

lemma trunc_nonneg {x : α} (h : 0 ≤ x) : 0 ≤ trunc x := by
  rw [trunc_of_nonneg h]; exact Int.le_floor.mpr (by exact_mod_cast h)

lemma trunc_nonpos {x : α} (h : x ≤ 0) : trunc x ≤ 0 := by
  rcases lt_or_eq_of_le h with h1 | h1
  · rw [trunc_of_neg h1]; exact Int.ceil_le.mpr (by exact_mod_cast h)
  · subst h1; simp [trunc]

lemma lt_trunc_add_one {x : α} (h : 0 ≤ x) : x < (trunc x : α) + 1 := by
  rw [trunc_of_nonneg h]; exact_mod_cast Int.lt_floor_add_one x

end NumLemmas

/-- C6: the fast-floor `fl` returns exactly the floor of its input and the
fast-ceil `cl` exactly the ceiling, including for negative and non-integral
inputs. -/
theorem fl_cl_exact (x : ℚ) : fl x = ⌊x⌋ ∧ cl x = ⌈x⌉ :=
  ⟨fl_eq_floor x, cl_eq_ceil x⟩

lemma project_top_eq (xres yres : ℤ) (focal : ℚ) (c : Point ℚ) :
    (project xres yres focal c).top =
      if trunc (((yres : ℚ) + wallSize xres focal c) / 2) > yres then yres
      else trunc (((yres : ℚ) + wallSize xres focal c) / 2) := rfl

lemma project_bot_eq (xres yres : ℤ) (focal : ℚ) (c : Point ℚ) :
    (project xres yres focal c).bot =
      if trunc (((yres : ℚ) - wallSize xres focal c) / 2) < 0 then 0
      else trunc (((yres : ℚ) - wallSize xres focal c) / 2) := rfl

lemma project_size_eq (xres yres : ℤ) (focal : ℚ) (c : Point ℚ) :
    (project xres yres focal c).size = wallSize xres focal c := rfl

lemma normal_pos (c : Point ℚ) : 0 < normal c := by
  unfold normal
  split_ifs with h
  · norm_num
  · have : (1e-2 : ℚ) ≤ c.x := not_lt.mp h
    linarith [show (0:ℚ) < 1e-2 by norm_num]

lemma wallSize_pos {xres : ℤ} (focal : ℚ) (c : Point ℚ) (hx : 0 < xres)
    (hf : 0 < focal) : 0 < wallSize xres focal c := by
  unfold wallSize
  have h1 : (0 : ℚ) < (xres : ℚ) := by exact_mod_cast hx
  have h2 : (0 : ℚ) < 0.5 * focal * (xres : ℚ) := by nlinarith
  exact div_pos h2 (normal_pos c)

lemma project_bounds {xres yres : ℤ} (focal : ℚ) (c : Point ℚ)
    (hx : 0 < xres) (hy : 0 < yres) (hf : 0 < focal) :
    0 ≤ (project xres yres focal c).bot ∧
      (project xres yres focal c).bot ≤ (project xres yres focal c).top ∧
      (project xres yres focal c).top ≤ yres := by
  have hs := wallSize_pos focal c hx hf
  set s := wallSize xres focal c with hsdef
  have hyQ : (0 : ℚ) < (yres : ℚ) := by exact_mod_cast hy
  have htop0 : 0 ≤ trunc (((yres : ℚ) + s) / 2) := trunc_nonneg (by linarith)
  have hbt : trunc (((yres : ℚ) - s) / 2) ≤ trunc (((yres : ℚ) + s) / 2) :=
    trunc_mono (by linarith)
  have hb_yres : trunc (((yres : ℚ) - s) / 2) ≤ yres := by
    rcases le_or_lt 0 (((yres : ℚ) - s) / 2) with h0 | h0
    · have h1 : (trunc (((yres : ℚ) - s) / 2) : ℚ) ≤ ((yres : ℚ) - s) / 2 :=
        trunc_le_self h0
      have h2 : (trunc (((yres : ℚ) - s) / 2) : ℚ) ≤ (yres : ℚ) := by linarith
      exact_mod_cast h2
    · exact (trunc_nonpos h0.le).trans hy.le
  rw [project_top_eq, project_bot_eq, ← hsdef]
  refine ⟨?_, ?_, ?_⟩ <;> split_ifs <;> omega

lemma wallSize_example : wallSize 700 (4/5) ⟨1, 0⟩ = 280 := by
  norm_num [wallSize, normal]

lemma project_example_top : (project 700 400 (4/5) ⟨1, 0⟩).top = 340 := by
  rw [project_top_eq, wallSize_example]
  norm_num [trunc]

lemma project_example_bot : (project 700 400 (4/5) ⟨1, 0⟩).bot = 60 := by
  rw [project_bot_eq, wallSize_example]
  norm_num [trunc]

/-- C3 counterexample: at resolution 700 x 400 with focal length 4/5 and
normal distance 1, `project` returns `top = 340` and `bot = 60`, so the
claimed ordering `top <= bot` fails (the `top` field is the lower screen
boundary of the wall span, i.e. the larger row index). -/
theorem project_claimed_order_fails :
    0 < (700 : ℤ) ∧ 0 < (400 : ℤ) ∧ 0 < (4/5 : ℚ) ∧
      0 < (Point.mk (1 : ℚ) 0).x ∧
      ¬ ((project 700 400 (4/5) ⟨1, 0⟩).top ≤ (project 700 400 (4/5) ⟨1, 0⟩).bot) := by
  refine ⟨by norm_num, by norm_num, by norm_num, by norm_num, ?_⟩
  rw [project_example_top, project_example_bot]
  norm_num

/-- C3 (amended): for every positive normal distance, focal length and
resolution, the `Wall` returned by `project` satisfies
`0 <= bot <= top <= resolutionY` (the spec's inequality chain with the roles
of `top` and `bot` interchanged, matching the field use in `render`). -/
theorem project_bounds_ordered (xres yres : ℤ) (focal : ℚ) (c : Point ℚ)
    (hx : 0 < xres) (hy : 0 < yres) (hf : 0 < focal) (_hc : 0 < c.x) :
    0 ≤ (project xres yres focal c).bot ∧
      (project xres yres focal c).bot ≤ (project xres yres focal c).top ∧
      (project xres yres focal c).top ≤ yres :=
  project_bounds focal c hx hy hf

/-- Witness for C3 at the concrete configuration of main.c
(700 x 400, focal length 4/5, normal distance 1). -/
theorem project_bounds_ordered_witness :
    0 ≤ (project 700 400 (4/5) ⟨1, 0⟩).bot ∧
      (project 700 400 (4/5) ⟨1, 0⟩).bot ≤ (project 700 400 (4/5) ⟨1, 0⟩).top ∧
      (project 700 400 (4/5) ⟨1, 0⟩).top ≤ 400 :=
  project_bounds_ordered 700 400 (4/5) ⟨1, 0⟩ (by norm_num) (by norm_num)
    (by norm_num) (by norm_num)

/-- C8: for every screen column the three render passes of `render` (floor
rows `[0, bot)`, wall rows `[bot, top)`, ceiling rows `[top, yres)`) paint
every row of the column exactly once: their concatenation is exactly the row
range `[0, yres)`, and each row is counted once. -/
theorem render_rows_partition (xres yres : ℤ) (focal : ℚ) (c : Point ℚ)
    (hx : 0 < xres) (hy : 0 < yres) (hf : 0 < focal) :
    floorRows (project xres yres focal c) ++ wallRows (project xres yres focal c) ++
        ceilRows yres (project xres yres focal c) = List.range yres.toNat ∧
      ∀ y : ℕ, y < yres.toNat →
        List.count y (floorRows (project xres yres focal c) ++
          wallRows (project xres yres focal c) ++
          ceilRows yres (project xres yres focal c)) = 1 := by
  obtain ⟨hb0, hbt, hty⟩ := project_bounds focal c hx hy hf
  set wall := project xres yres focal c
  have hbtN : wall.bot.toNat ≤ wall.top.toNat := Int.toNat_le_toNat hbt
  have htyN : wall.top.toNat ≤ yres.toNat := Int.toNat_le_toNat hty
  have heq : floorRows wall ++ wallRows wall ++ ceilRows yres wall =
      List.range yres.toNat := by
    unfold floorRows wallRows ceilRows
    rw [List.range_eq_range', List.range_eq_range']
    have h1 := List.range'_append 0 wall.bot.toNat
      (wall.top.toNat - wall.bot.toNat) 1
    rw [zero_add, one_mul] at h1
    rw [h1]
    have h2 := List.range'_append 0
      (wall.top.toNat - wall.bot.toNat + wall.bot.toNat)
      (yres.toNat - wall.top.toNat) 1
    rw [zero_add, one_mul] at h2
    rw [Nat.sub_add_cancel hbtN] at h2 ⊢
    rw [h2, Nat.sub_add_cancel htyN]
  refine ⟨heq, fun y hy2 => ?_⟩
  rw [heq]
  exact List.count_eq_one_of_mem (List.nodup_range _) (List.mem_range.mpr hy2)

/-- Witness for C8 at the concrete configuration of main.c. -/
theorem render_rows_partition_witness :
    floorRows (project 700 400 (4/5) ⟨1, 0⟩) ++ wallRows (project 700 400 (4/5) ⟨1, 0⟩) ++
        ceilRows 400 (project 700 400 (4/5) ⟨1, 0⟩) = List.range (400 : ℤ).toNat ∧
      ∀ y : ℕ, y < (400 : ℤ).toNat →
        List.count y (floorRows (project 700 400 (4/5) ⟨1, 0⟩) ++
          wallRows (project 700 400 (4/5) ⟨1, 0⟩) ++
          ceilRows 400 (project 700 400 (4/5) ⟨1, 0⟩)) = 1 :=
  render_rows_partition 700 400 (4/5) ⟨1, 0⟩ (by norm_num) (by norm_num) (by norm_num)

/-- C10: within the floor pass (rows `[0, bot)`) and the ceiling pass (rows
`[top, yres)`) of `render`, the denominator `2 * (y + 1) - yres` of `pcast`
is non-zero, and the division in `pcast` is exact. -/
theorem pcast_denominator_nonzero (xres yres : ℤ) (focal : ℚ) (c : Point ℚ)
    (hx : 0 < xres) (hy : 0 < yres) (hf : 0 < focal) (y : ℤ)
    (hrow : (0 ≤ y ∧ y < (project xres yres focal c).bot) ∨
      ((project xres yres focal c).top ≤ y ∧ y < yres)) :
    (2 * (y + 1) - yres : ℤ) ≠ 0 ∧
      pcast (project xres yres focal c).size yres y * ((2 * (y + 1) - yres : ℤ) : ℚ) =
        (project xres yres focal c).size := by
  have hs := wallSize_pos focal c hx hf
  have hden : (2 * (y + 1) - yres : ℤ) ≠ 0 := by
    rcases hrow with ⟨hy0, hyb⟩ | ⟨hyt, hyy⟩
    · rw [project_bot_eq] at hyb
      set b := trunc (((yres : ℚ) - wallSize xres focal c) / 2) with hbdef
      have hb1 : y < b := by
        by_cases hbneg : b < 0
        · rw [if_pos hbneg] at hyb; omega
        · rwa [if_neg hbneg] at hyb
      have hbpos : 0 < b := by omega
      have hraw : (0 : ℚ) ≤ ((yres : ℚ) - wallSize xres focal c) / 2 := by
        by_contra hneg
        push_neg at hneg
        have := trunc_nonpos (le_of_lt hneg)
        rw [← hbdef] at this
        omega
      have hble : (b : ℚ) ≤ ((yres : ℚ) - wallSize xres focal c) / 2 := by
        rw [hbdef]; exact trunc_le_self hraw
      have hyq : ((y : ℚ) + 1) ≤ (b : ℚ) := by exact_mod_cast hb1
      have : (2 * (y + 1) - yres : ℤ) < 0 := by
        have h2 : ((2 * (y + 1) - yres : ℤ) : ℚ) < 0 := by push_cast; linarith
        exact_mod_cast h2
      omega
    · rw [project_top_eq] at hyt
      set t := trunc (((yres : ℚ) + wallSize xres focal c) / 2) with htdef
      have ht1 : t ≤ y := by
        by_cases htbig : t > yres
        · rw [if_pos htbig] at hyt; omega
        · rwa [if_neg htbig] at hyt
      have hraw : (0 : ℚ) ≤ ((yres : ℚ) + wallSize xres focal c) / 2 := by
        have hyQ : (0 : ℚ) < (yres : ℚ) := by exact_mod_cast hy
        linarith
      have htlt : ((yres : ℚ) + wallSize xres focal c) / 2 < (t : ℚ) + 1 := by
        rw [htdef]; exact lt_trunc_add_one hraw
      have hyq : (t : ℚ) ≤ (y : ℚ) := by exact_mod_cast ht1
      have : (0 : ℤ) < 2 * (y + 1) - yres := by
        have h2 : (0 : ℚ) < ((2 * (y + 1) - yres : ℤ) : ℚ) := by push_cast; linarith
        exact_mod_cast h2
      omega
  refine ⟨hden, ?_⟩
  unfold pcast
  rw [div_mul_cancel₀]
  exact_mod_cast hden

/-- Witness for C10 at the concrete configuration of main.c, floor row 0. -/
theorem pcast_denominator_nonzero_witness :
    (2 * ((0 : ℤ) + 1) - 400 : ℤ) ≠ 0 ∧
      pcast (project 700 400 (4/5) ⟨1, 0⟩).size 400 0 * ((2 * ((0 : ℤ) + 1) - 400 : ℤ) : ℚ) =
        (project 700 400 (4/5) ⟨1, 0⟩).size :=
  pcast_denominator_nonzero 700 400 (4/5) ⟨1, 0⟩ (by norm_num) (by norm_num)
    (by norm_num) 0 (Or.inl ⟨le_refl 0, by rw [project_example_bot]; norm_num⟩)

/-- C9: the built-in map of `build` satisfies the TileGrid invariant: the
three layers are rectangular with identical dimensions 45 x 7, and every
tile on the outer border of the wall layer is non-empty. -/
theorem build_map_invariant :
    RectGrid ceiling 45 7 ∧ RectGrid walling 45 7 ∧ RectGrid floring 45 7 ∧
      SolidBorder walling 45 7 := by
  refine ⟨by decide, by decide, by decide, by decide⟩

lemma mag_nonneg (a : Point ℝ) : 0 ≤ mag a := Real.sqrt_nonneg _

lemma mag_zero_point : mag ⟨0, 0⟩ = 0 := by
  unfold mag
  norm_num

lemma mag_mul (a : Point ℝ) (c : ℝ) : mag (mul a c) = |c| * mag a := by
  unfold mag mul
  have h : a.x * c * (a.x * c) + a.y * c * (a.y * c) =
      c ^ 2 * (a.x * a.x + a.y * a.y) := by ring
  simp only [h]
  rw [Real.sqrt_mul (sq_nonneg c), Real.sqrt_sq_eq_abs]

lemma mag_unit {a : Point ℝ} (h : 0 < mag a) : mag (unit a) = 1 := by
  unfold unit
  rw [mag_mul, abs_of_pos (by positivity), one_div, inv_mul_cancel₀ (ne_of_gt h)]

lemma mag_clampSpeed_eq {s : ℝ} {v : Point ℝ} (hs : 0 ≤ s) (h : s < mag v) :
    mag (clampSpeed s v) = s := by
  unfold clampSpeed
  rw [if_pos h, mag_mul, mag_unit (hs.trans_lt h), mul_one, abs_of_nonneg hs]

lemma mag_clampSpeed_le_speed {s : ℝ} (v : Point ℝ) (hs : 0 ≤ s) :
    mag (clampSpeed s v) ≤ s := by
  by_cases h : s < mag v
  · exact (mag_clampSpeed_eq hs h).le
  · unfold clampSpeed
    rw [if_neg h]
    exact not_lt.mp h

lemma mag_clampSpeed_le_self {s : ℝ} (v : Point ℝ) (hs : 0 ≤ s) :
    mag (clampSpeed s v) ≤ mag v := by
  by_cases h : s < mag v
  · rw [mag_clampSpeed_eq hs h]
    exact h.le
  · unfold clampSpeed
    rw [if_neg h]

lemma move_velocity_cases (hero : Hero) (walling : Grid) (key : Keys) :
    (move hero walling key).velocity = ⟨0, 0⟩ ∨
      (move hero walling key).velocity = clampSpeed hero.speed (accelerate hero key) := by
  unfold move
  by_cases h :
      (tile (add hero.where_ (clampSpeed hero.speed (accelerate hero key))) walling).getD 0 ≠ 0
  · rw [if_pos h]
    exact Or.inl rfl
  · rw [if_neg h]
    exact Or.inr rfl

/-- C2: movement collision is atomic: whenever the tentative position
(pre-tick position plus post-clamp velocity) samples a non-empty wall tile,
`move` returns the pre-tick position unchanged and the zero velocity. -/
theorem move_collision_atomic (hero : Hero) (walling : Grid) (key : Keys) (k : ℤ)
    (hk : tile (add hero.where_ (clampSpeed hero.speed (accelerate hero key))) walling = some k)
    (hk0 : k ≠ 0) :
    (move hero walling key).where_ = hero.where_ ∧
      (move hero walling key).velocity = ⟨0, 0⟩ := by
  unfold move
  rw [hk, Option.getD_some, if_pos hk0]
  exact ⟨rfl, rfl⟩

/-- C4: the speed cap: for every hero state (with a nonnegative speed cap,
as the data model requires) and every key input, the velocity returned by
`move` has magnitude at most `speed` (so in particular at most
`speed + epsilon` for any positive epsilon), and the clamp rescales an
over-speed staged velocity to exactly magnitude `speed`. -/
theorem move_speed_cap (hero : Hero) (walling : Grid) (key : Keys)
    (hs : 0 ≤ hero.speed) :
    mag (move hero walling key).velocity ≤ hero.speed ∧
      (hero.speed < mag (accelerate hero key) →
        mag (clampSpeed hero.speed (accelerate hero key)) = hero.speed) := by
  constructor
  · rcases move_velocity_cases hero walling key with h | h
    · rw [h, mag_zero_point]
      exact hs
    · rw [h]
      exact mag_clampSpeed_le_speed _ hs
  · intro h
    exact mag_clampSpeed_eq hs h

/-- C7: with no movement key active, the acceleration stage of `move`
multiplies the velocity componentwise by `1 - acceleration / speed`, and for
`0 <= acceleration <= speed` the velocity magnitude after the whole tick
never exceeds the magnitude before it. -/
theorem move_no_keys_decay (hero : Hero) (walling : Grid) (key : Keys)
    (hw : key.w = false) (hs : key.s = false) (hd : key.d = false) (ha : key.a = false)
    (hacc0 : 0 ≤ hero.acceleration) (haccs : hero.acceleration ≤ hero.speed) :
    accelerate hero key = mul hero.velocity (1 - hero.acceleration / hero.speed) ∧
      mag (move hero walling key).velocity ≤ mag hero.velocity := by
  have hdecay : accelerate hero key =
      mul hero.velocity (1 - hero.acceleration / hero.speed) := by
    unfold accelerate
    rw [hw, hs, hd, ha]
    simp
  have hspeed : 0 ≤ hero.speed := hacc0.trans haccs
  have hfrac : 0 ≤ hero.acceleration / hero.speed ∧
      hero.acceleration / hero.speed ≤ 1 := by
    rcases eq_or_lt_of_le hspeed with h0 | h0
    · have : hero.acceleration = 0 := le_antisymm (by rw [h0]; exact haccs) hacc0
      rw [this]
      norm_num
    · exact ⟨div_nonneg hacc0 hspeed, (div_le_one h0).mpr haccs⟩
  have hk1 : |1 - hero.acceleration / hero.speed| ≤ 1 := by
    rw [abs_of_nonneg (by linarith [hfrac.2])]
    linarith [hfrac.1]
  have hstage : mag (accelerate hero key) ≤ mag hero.velocity := by
    rw [hdecay, mag_mul]
    calc |1 - hero.acceleration / hero.speed| * mag hero.velocity
        ≤ 1 * mag hero.velocity := by
          exact mul_le_mul_of_nonneg_right hk1 (mag_nonneg _)
      _ = mag hero.velocity := one_mul _
  refine ⟨hdecay, ?_⟩
  rcases move_velocity_cases hero walling key with h | h
  · rw [h, mag_zero_point]
    exact mag_nonneg _
  · rw [h]
    exact (mag_clampSpeed_le_self _ hspeed).trans hstage

lemma accelerate_hero0 : accelerate hero0 keys0 = ⟨0, 0⟩ := by
  unfold accelerate hero0 keys0
  norm_num [mul]

lemma clampSpeed_hero0 : clampSpeed hero0.speed (accelerate hero0 keys0) = ⟨0, 0⟩ := by
  rw [accelerate_hero0]
  unfold clampSpeed
  rw [if_neg]
  rw [mag_zero_point]
  norm_num [hero0]

lemma tile_hero0 :
    tile (add hero0.where_ (clampSpeed hero0.speed (accelerate hero0 keys0))) walling =
      some 3 := by
  rw [clampSpeed_hero0]
  have hpt : add hero0.where_ (⟨0, 0⟩ : Point ℝ) = ⟨2.5, 3.5⟩ := by
    unfold hero0 add
    norm_num
  rw [hpt]
  unfold tile
  have hx : trunc (Point.mk (2.5 : ℝ) 3.5).x = 2 := by
    rw [trunc_of_nonneg (by norm_num)]
    norm_num
  have hy : trunc (Point.mk (2.5 : ℝ) 3.5).y = 3 := by
    rw [trunc_of_nonneg (by norm_num)]
    norm_num
  rw [hx, hy]
  decide

/-- Witness for C2: the concrete hero at `(2.5, 3.5)` (a tile-3 cell of the
wall layer) with zero velocity and no key held collides and keeps its
position with zero velocity. -/
theorem move_collision_atomic_witness :
    tile (add hero0.where_ (clampSpeed hero0.speed (accelerate hero0 keys0))) walling =
        some 3 ∧
      (move hero0 walling keys0).where_ = hero0.where_ ∧
        (move hero0 walling keys0).velocity = ⟨0, 0⟩ :=
  ⟨tile_hero0, move_collision_atomic hero0 walling keys0 3 tile_hero0 (by norm_num)⟩

/-- Witness for C4 at the concrete hero. -/
theorem move_speed_cap_witness :
    mag (move hero0 walling keys0).velocity ≤ hero0.speed ∧
      (hero0.speed < mag (accelerate hero0 keys0) →
        mag (clampSpeed hero0.speed (accelerate hero0 keys0)) = hero0.speed) :=
  move_speed_cap hero0 walling keys0 (by norm_num [hero0])

/-- Witness for C7 at the concrete hero. -/
theorem move_no_keys_decay_witness :
    accelerate hero0 keys0 = mul hero0.velocity (1 - hero0.acceleration / hero0.speed) ∧
      mag (move hero0 walling keys0).velocity ≤ mag hero0.velocity :=
  move_no_keys_decay hero0 walling keys0 rfl rfl rfl rfl (by norm_num [hero0])
    (by norm_num [hero0])

lemma sh_x_pos {a b : Point ℚ} (h : 0 < b.x) :
    (sh a b).x = ((⌊a.x⌋ + 1 : ℤ) : ℚ) := by
  simp only [sh, if_pos h]
  rw [fl_eq_floor]
  exact_mod_cast congrArg (fun z : ℤ => (z : ℚ)) (Int.floor_add_one a.x)

lemma sh_x_nonpos {a b : Point ℚ} (h : ¬ 0 < b.x) :
    (sh a b).x = ((⌈a.x⌉ - 1 : ℤ) : ℚ) := by
  simp only [sh, if_neg h]
  rw [cl_eq_ceil]
  exact_mod_cast congrArg (fun z : ℤ => (z : ℚ)) (Int.ceil_sub_one a.x)

lemma sh_y (a b : Point ℚ) :
    (sh a b).y = slope b * ((sh a b).x - a.x) + a.y := rfl

lemma sv_y_pos {a b : Point ℚ} (h : 0 < b.y) :
    (sv a b).y = ((⌊a.y⌋ + 1 : ℤ) : ℚ) := by
  simp only [sv, if_pos h]
  rw [fl_eq_floor]
  exact_mod_cast congrArg (fun z : ℤ => (z : ℚ)) (Int.floor_add_one a.y)

lemma sv_y_nonpos {a b : Point ℚ} (h : ¬ 0 < b.y) :
    (sv a b).y = ((⌈a.y⌉ - 1 : ℤ) : ℚ) := by
  simp only [sv, if_neg h]
  rw [cl_eq_ceil]
  exact_mod_cast congrArg (fun z : ℤ => (z : ℚ)) (Int.ceil_sub_one a.y)

lemma sv_x (a b : Point ℚ) :
    (sv a b).x = ((sv a b).y - a.y) / slope b + a.x := rfl

lemma stepRay_cases (a b : Point ℚ) :
    stepRay a b = sh a b ∨ stepRay a b = sv a b := by
  unfold stepRay
  split_ifs
  · exact Or.inl rfl
  · exact Or.inr rfl

/-- C5: every hit returned by the caster lies on a grid line: its x or y
coordinate is within `1e-3` of an integer (in the exact model it is exactly
integral, because the returned point is the chosen horizontal or vertical
grid-line crossing, never the nudged sample point). -/
theorem cast_hit_on_grid_line (fuel : ℕ) (p d : Point ℚ) (g : Grid) (hit : Hit)
    (h : castFuel fuel p d g = some hit) :
    (∃ n : ℤ, |hit.where_.x - (n : ℚ)| ≤ 1e-3) ∨
      (∃ n : ℤ, |hit.where_.y - (n : ℚ)| ≤ 1e-3) := by
  induction fuel generalizing p with
  | zero => exact Option.noConfusion h
  | succ fuel ih =>
    rw [castFuel] at h
    rcases htile : tile (add (stepRay p d) (nudge p d)) g with _ | t
    · rw [htile] at h
      exact Option.noConfusion h
    · rw [htile] at h
      have h2 : (if t ≠ 0 then some (Hit.mk t (stepRay p d))
          else castFuel fuel (stepRay p d) d g) = some hit := h
      by_cases ht : t ≠ 0
      · rw [if_pos ht] at h2
        have hhit : Hit.mk t (stepRay p d) = hit := by
          injection h2
        rcases stepRay_cases p d with hs | hs
        · left
          rw [← hhit]
          by_cases hb : 0 < d.x
          · exact ⟨⌊p.x⌋ + 1, by show |(stepRay p d).x - _| ≤ _; rw [hs, sh_x_pos hb]; norm_num⟩
          · exact ⟨⌈p.x⌉ - 1, by show |(stepRay p d).x - _| ≤ _; rw [hs, sh_x_nonpos hb]; norm_num⟩
        · right
          rw [← hhit]
          by_cases hb : 0 < d.y
          · exact ⟨⌊p.y⌋ + 1, by show |(stepRay p d).y - _| ≤ _; rw [hs, sv_y_pos hb]; norm_num⟩
          · exact ⟨⌈p.y⌉ - 1, by show |(stepRay p d).y - _| ≤ _; rw [hs, sv_y_nonpos hb]; norm_num⟩
      · rw [if_neg ht] at h2
        exact ih _ h2

lemma sh_example : sh (⟨7/2, 7/2⟩ : Point ℚ) ⟨1, 1⟩ = ⟨4, 4⟩ := by
  have hx : (sh (⟨7/2, 7/2⟩ : Point ℚ) ⟨1, 1⟩).x = 4 := by
    rw [sh_x_pos (by norm_num)]
    norm_num
  have hy2 : (sh (⟨7/2, 7/2⟩ : Point ℚ) ⟨1, 1⟩).y = 4 := by
    rw [sh_y, hx]
    norm_num [slope]
  cases heq : sh (⟨7/2, 7/2⟩ : Point ℚ) ⟨1, 1⟩ with
  | mk a b =>
    rw [heq] at hx hy2
    simp only at hx hy2
    rw [hx, hy2]

lemma sv_example : sv (⟨7/2, 7/2⟩ : Point ℚ) ⟨1, 1⟩ = ⟨4, 4⟩ := by
  have hy2 : (sv (⟨7/2, 7/2⟩ : Point ℚ) ⟨1, 1⟩).y = 4 := by
    rw [sv_y_pos (by norm_num)]
    norm_num
  have hx : (sv (⟨7/2, 7/2⟩ : Point ℚ) ⟨1, 1⟩).x = 4 := by
    rw [sv_x, hy2]
    norm_num [slope]
  cases heq : sv (⟨7/2, 7/2⟩ : Point ℚ) ⟨1, 1⟩ with
  | mk a b =>
    rw [heq] at hx hy2
    simp only at hx hy2
    rw [hx, hy2]

lemma stepRay_example : stepRay (⟨7/2, 7/2⟩ : Point ℚ) ⟨1, 1⟩ = ⟨4, 4⟩ := by
  unfold stepRay
  rw [sh_example, sv_example, ite_self]

lemma nudge_example : nudge (⟨7/2, 7/2⟩ : Point ℚ) ⟨1, 1⟩ = ⟨1/100, 1/100⟩ := by
  unfold nudge
  rw [sh_example, sv_example]
  rw [if_pos (by norm_num [magSq, sub])]
  norm_num [mul]

lemma tile_example : tile (add (⟨4, 4⟩ : Point ℚ) ⟨1/100, 1/100⟩) walling = some 3 := by
  have hpt : add (⟨4, 4⟩ : Point ℚ) ⟨1/100, 1/100⟩ = ⟨401/100, 401/100⟩ := by
    unfold add
    norm_num
  rw [hpt]
  unfold tile
  have hx : trunc (Point.mk (401/100 : ℚ) (401/100)).x = 4 := by
    rw [trunc_of_nonneg (by norm_num)]
    norm_num
  have hy : trunc (Point.mk (401/100 : ℚ) (401/100)).y = 4 := by
    rw [trunc_of_nonneg (by norm_num)]
    norm_num
  simp only [hx, hy]
  decide

lemma cast_example : castFuel 10 ⟨7/2, 7/2⟩ ⟨1, 1⟩ walling = some ⟨3, ⟨4, 4⟩⟩ := by
  show castFuel (9 + 1) ⟨7/2, 7/2⟩ ⟨1, 1⟩ walling = some ⟨3, ⟨4, 4⟩⟩
  rw [castFuel]
  simp only [stepRay_example, nudge_example, tile_example]
  norm_num

/-- Witness for C5: casting from `(3.5, 3.5)` along `(1, 1)` hits tile 3 at
the lattice corner `(4, 4)`, whose coordinates are integral. -/
theorem cast_hit_on_grid_line_witness :
    (∃ n : ℤ, |(Hit.mk 3 ⟨4, 4⟩).where_.x - (n : ℚ)| ≤ 1e-3) ∨
      (∃ n : ℤ, |(Hit.mk 3 ⟨4, 4⟩).where_.y - (n : ℚ)| ≤ 1e-3) :=
  cast_hit_on_grid_line 10 ⟨7/2, 7/2⟩ ⟨1, 1⟩ walling ⟨3, ⟨4, 4⟩⟩ cast_example

lemma phi_mono_pos {c x y : ℚ} (hc : 0 < c) (h : x ≤ y) : phi c x ≤ phi c y := by
  unfold phi
  rw [if_pos hc, if_pos hc]
  exact Int.floor_le_floor h

lemma phi_mono_nonpos {c x y : ℚ} (hc : ¬ 0 < c) (h : y ≤ x) : phi c x ≤ phi c y := by
  unfold phi
  rw [if_neg hc, if_neg hc]
  exact neg_le_neg (Int.ceil_le_ceil h)

lemma sh_y_shift (p d : Point ℚ) : (sh p d).y - p.y = slope d * ((sh p d).x - p.x) := by
  rw [sh_y]
  ring

lemma sv_x_shift (p d : Point ℚ) : (sv p d).x - p.x = ((sv p d).y - p.y) / slope d := by
  rw [sv_x]
  ring

lemma sh_dx_pos {p : Point ℚ} {d : Point ℚ} (hdx : 0 < d.x) : 0 < (sh p d).x - p.x := by
  rw [sh_x_pos hdx]
  push_cast
  linarith [Int.lt_floor_add_one p.x]

lemma sh_dx_neg {p : Point ℚ} {d : Point ℚ} (hdx : ¬ 0 < d.x) : (sh p d).x - p.x < 0 := by
  rw [sh_x_nonpos hdx]
  push_cast
  linarith [Int.ceil_lt_add_one p.x]

lemma sv_dy_pos {p : Point ℚ} {d : Point ℚ} (hdy : 0 < d.y) : 0 < (sv p d).y - p.y := by
  rw [sv_y_pos hdy]
  push_cast
  linarith [Int.lt_floor_add_one p.y]

lemma sv_dy_neg {p : Point ℚ} {d : Point ℚ} (hdy : ¬ 0 < d.y) : (sv p d).y - p.y < 0 := by
  rw [sv_y_nonpos hdy]
  push_cast
  linarith [Int.ceil_lt_add_one p.y]

lemma sh_dy_nonneg {p : Point ℚ} {d : Point ℚ} (hdy : 0 < d.y) :
    0 ≤ (sh p d).y - p.y := by
  rw [sh_y_shift]
  rcases lt_trichotomy d.x 0 with hx | hx | hx
  · have hs : slope d ≤ 0 := div_nonpos_iff.mpr (Or.inl ⟨hdy.le, hx.le⟩)
    have hd := sh_dx_neg (not_lt.mpr hx.le) (p := p) (d := d)
    nlinarith
  · unfold slope
    rw [hx, div_zero, zero_mul]
  · have hs : 0 ≤ slope d := div_nonneg hdy.le hx.le
    have hd := sh_dx_pos hx (p := p) (d := d)
    nlinarith

lemma sh_dy_nonpos {p : Point ℚ} {d : Point ℚ} (hdy : d.y ≤ 0) :
    (sh p d).y - p.y ≤ 0 := by
  rw [sh_y_shift]
  rcases lt_trichotomy d.x 0 with hx | hx | hx
  · have hs : 0 ≤ slope d := div_nonneg_iff.mpr (Or.inr ⟨hdy, hx.le⟩)
    have hd := sh_dx_neg (not_lt.mpr hx.le) (p := p) (d := d)
    nlinarith
  · unfold slope
    rw [hx, div_zero, zero_mul]
  · have hs : slope d ≤ 0 := div_nonpos_iff.mpr (Or.inr ⟨hdy, hx.le⟩)
    have hd := sh_dx_pos hx (p := p) (d := d)
    nlinarith

lemma sv_dx_nonneg {p : Point ℚ} {d : Point ℚ} (hdx : 0 < d.x) :
    0 ≤ (sv p d).x - p.x := by
  rw [sv_x_shift]
  rcases lt_trichotomy 0 d.y with hy | hy | hy
  · have hs : 0 < slope d := div_pos hy hdx
    exact div_nonneg (sv_dy_pos hy (p := p)).le hs.le
  · unfold slope
    rw [← hy, zero_div, div_zero]
  · have hs : slope d ≤ 0 := div_nonpos_iff.mpr (Or.inr ⟨hy.le, hdx.le⟩)
    exact div_nonneg_iff.mpr (Or.inr ⟨(sv_dy_neg (not_lt.mpr hy.le) (p := p)).le, hs⟩)

lemma sv_dx_nonpos {p : Point ℚ} {d : Point ℚ} (hdx : d.x ≤ 0) :
    (sv p d).x - p.x ≤ 0 := by
  rw [sv_x_shift]
  rcases lt_trichotomy 0 d.y with hy | hy | hy
  · have hs : slope d ≤ 0 := div_nonpos_iff.mpr (Or.inl ⟨hy.le, hdx⟩)
    exact div_nonpos_iff.mpr (Or.inl ⟨(sv_dy_pos hy (p := p)).le, hs⟩)
  · unfold slope
    rw [← hy, zero_div, div_zero]
  · have hs : 0 ≤ slope d := div_nonneg_iff.mpr (Or.inr ⟨hy.le, hdx⟩)
    exact div_nonpos_iff.mpr (Or.inr ⟨(sv_dy_neg (not_lt.mpr hy.le) (p := p)).le, hs⟩)

lemma phi_sh_x (p d : Point ℚ) : phi d.x (sh p d).x = phi d.x p.x + 1 := by
  unfold phi
  by_cases hb : 0 < d.x
  · rw [if_pos hb, if_pos hb, sh_x_pos hb, Int.floor_intCast]
  · rw [if_neg hb, if_neg hb, sh_x_nonpos hb, Int.ceil_intCast]
    ring

lemma phi_sv_y (p d : Point ℚ) : phi d.y (sv p d).y = phi d.y p.y + 1 := by
  unfold phi
  by_cases hb : 0 < d.y
  · rw [if_pos hb, if_pos hb, sv_y_pos hb, Int.floor_intCast]
  · rw [if_neg hb, if_neg hb, sv_y_nonpos hb, Int.ceil_intCast]
    ring

lemma phi_sh_y (p d : Point ℚ) : phi d.y p.y ≤ phi d.y (sh p d).y := by
  by_cases hb : 0 < d.y
  · exact phi_mono_pos hb (by linarith [sh_dy_nonneg hb (p := p) (d := d)])
  · exact phi_mono_nonpos hb (by linarith [sh_dy_nonpos (not_lt.mp hb) (p := p) (d := d)])

lemma phi_sv_x (p d : Point ℚ) : phi d.x p.x ≤ phi d.x (sv p d).x := by
  by_cases hb : 0 < d.x
  · exact phi_mono_pos hb (by linarith [sv_dx_nonneg hb (p := p) (d := d)])
  · exact phi_mono_nonpos hb (by linarith [sv_dx_nonpos (not_lt.mp hb) (p := p) (d := d)])

lemma mu_step (p d : Point ℚ) : mu d p + 1 ≤ mu d (stepRay p d) := by
  rcases stepRay_cases p d with hs | hs <;> rw [hs] <;> unfold mu
  · have h1 := phi_sh_x p d
    have h2 := phi_sh_y p d
    omega
  · have h1 := phi_sv_y p d
    have h2 := phi_sv_x p d
    omega

lemma magSq_sub (u v : Point ℚ) :
    magSq (sub u v) = (u.x - v.x) ^ 2 + (u.y - v.y) ^ 2 := by
  simp only [magSq, sub]
  ring

lemma stepRay_sq_le (p d : Point ℚ) :
    ((stepRay p d).x - p.x) ^ 2 ≤ ((sh p d).x - p.x) ^ 2 ∧
      ((stepRay p d).y - p.y) ^ 2 ≤ ((sv p d).y - p.y) ^ 2 := by
  have hAy : (sh p d).y - p.y = slope d * ((sh p d).x - p.x) := sh_y_shift p d
  have hBx : (sv p d).x - p.x = ((sv p d).y - p.y) / slope d := sv_x_shift p d
  unfold stepRay
  by_cases hlt : magSq (sub (sh p d) p) < magSq (sub (sv p d) p)
  · rw [if_pos hlt]
    refine ⟨le_refl _, ?_⟩
    rw [magSq_sub, magSq_sub] at hlt
    by_cases hs : slope d = 0
    · rw [hAy, hs, zero_mul]
      positivity
    · have hs2 : 0 < slope d * slope d := mul_self_pos.mpr hs
      have hBy : (sv p d).y - p.y = slope d * ((sv p d).x - p.x) := by
        rw [hBx]
        field_simp
      rw [hAy, hBy] at hlt ⊢
      have h3 : ((sh p d).x - p.x) ^ 2 ≤ ((sv p d).x - p.x) ^ 2 := by
        by_contra hcon
        push_neg at hcon
        nlinarith [hlt, hs2, hcon]
      nlinarith [h3, hs2]
  · rw [if_neg hlt]
    refine ⟨?_, le_refl _⟩
    have hle : magSq (sub (sv p d) p) ≤ magSq (sub (sh p d) p) := not_lt.mp hlt
    rw [magSq_sub, magSq_sub] at hle
    by_cases hs : slope d = 0
    · rw [hBx, hs, div_zero]
      positivity
    · have hs2 : 0 < slope d * slope d := mul_self_pos.mpr hs
      have hBy : (sv p d).y - p.y = slope d * ((sv p d).x - p.x) := by
        rw [hBx]
        field_simp
      rw [hAy, hBy] at hle
      by_contra hcon
      push_neg at hcon
      nlinarith [hle, hs2, hcon]

lemma stepRay_x_lower_pos {p d : Point ℚ} (hdx : 0 < d.x) :
    p.x ≤ (stepRay p d).x := by
  rcases stepRay_cases p d with hs | hs <;> rw [hs]
  · linarith [sh_dx_pos hdx (p := p) (d := d)]
  · linarith [sv_dx_nonneg hdx (p := p) (d := d)]

lemma stepRay_x_upper_pos {p d : Point ℚ} (hdx : 0 < d.x) :
    (stepRay p d).x ≤ ((⌊p.x⌋ + 1 : ℤ) : ℚ) := by
  have hsq := (stepRay_sq_le p d).1
  rcases stepRay_cases p d with hs | hs
  · rw [hs, sh_x_pos hdx]
  · rw [hs]
    rw [hs] at hsq
    have hA : 0 < (sh p d).x - p.x := sh_dx_pos hdx
    have hB : 0 ≤ (sv p d).x - p.x := sv_dx_nonneg hdx
    have hBA : (sv p d).x - p.x ≤ (sh p d).x - p.x := by nlinarith [hsq, hA, hB]
    have hup : (sh p d).x = ((⌊p.x⌋ + 1 : ℤ) : ℚ) := sh_x_pos hdx
    linarith [hBA, hup.le, hup.ge]

lemma stepRay_x_upper_nonpos {p d : Point ℚ} (hdx : ¬ 0 < d.x) :
    (stepRay p d).x ≤ p.x := by
  rcases stepRay_cases p d with hs | hs <;> rw [hs]
  · linarith [sh_dx_neg hdx (p := p) (d := d)]
  · linarith [sv_dx_nonpos (not_lt.mp hdx) (p := p) (d := d)]

lemma stepRay_x_lower_nonpos {p d : Point ℚ} (hdx : ¬ 0 < d.x) :
    ((⌈p.x⌉ - 1 : ℤ) : ℚ) ≤ (stepRay p d).x := by
  have hsq := (stepRay_sq_le p d).1
  rcases stepRay_cases p d with hs | hs
  · rw [hs, sh_x_nonpos hdx]
  · rw [hs]
    rw [hs] at hsq
    have hA : (sh p d).x - p.x < 0 := sh_dx_neg hdx
    have hB : (sv p d).x - p.x ≤ 0 := sv_dx_nonpos (not_lt.mp hdx)
    have hBA : (sh p d).x - p.x ≤ (sv p d).x - p.x := by nlinarith [hsq, hA, hB]
    have hlow : (sh p d).x = ((⌈p.x⌉ - 1 : ℤ) : ℚ) := sh_x_nonpos hdx
    linarith [hBA, hlow.le, hlow.ge]

lemma stepRay_y_lower_pos {p d : Point ℚ} (hdy : 0 < d.y) :
    p.y ≤ (stepRay p d).y := by
  rcases stepRay_cases p d with hs | hs <;> rw [hs]
  · linarith [sh_dy_nonneg hdy (p := p) (d := d)]
  · linarith [sv_dy_pos hdy (p := p) (d := d)]

lemma stepRay_y_upper_pos {p d : Point ℚ} (hdy : 0 < d.y) :
    (stepRay p d).y ≤ ((⌊p.y⌋ + 1 : ℤ) : ℚ) := by
  have hsq := (stepRay_sq_le p d).2
  rcases stepRay_cases p d with hs | hs
  · rw [hs]
    rw [hs] at hsq
    have hB : 0 < (sv p d).y - p.y := sv_dy_pos hdy
    have hA : 0 ≤ (sh p d).y - p.y := sh_dy_nonneg hdy
    have hAB : (sh p d).y - p.y ≤ (sv p d).y - p.y := by nlinarith [hsq, hA, hB]
    have hup : (sv p d).y = ((⌊p.y⌋ + 1 : ℤ) : ℚ) := sv_y_pos hdy
    linarith [hAB, hup.le, hup.ge]
  · rw [hs, sv_y_pos hdy]

lemma stepRay_y_upper_nonpos {p d : Point ℚ} (hdy : ¬ 0 < d.y) :
    (stepRay p d).y ≤ p.y := by
  rcases stepRay_cases p d with hs | hs <;> rw [hs]
  · linarith [sh_dy_nonpos (not_lt.mp hdy) (p := p) (d := d)]
  · linarith [sv_dy_neg hdy (p := p) (d := d)]

lemma stepRay_y_lower_nonpos {p d : Point ℚ} (hdy : ¬ 0 < d.y) :
    ((⌈p.y⌉ - 1 : ℤ) : ℚ) ≤ (stepRay p d).y := by
  have hsq := (stepRay_sq_le p d).2
  rcases stepRay_cases p d with hs | hs
  · rw [hs]
    rw [hs] at hsq
    have hB : (sv p d).y - p.y < 0 := sv_dy_neg hdy
    have hA : (sh p d).y - p.y ≤ 0 := sh_dy_nonpos (not_lt.mp hdy)
    have hAB : (sv p d).y - p.y ≤ (sh p d).y - p.y := by nlinarith [hsq, hA, hB]
    have hlow : (sv p d).y = ((⌈p.y⌉ - 1 : ℤ) : ℚ) := sv_y_nonpos hdy
    linarith [hAB, hlow.le, hlow.ge]
  · rw [hs, sv_y_nonpos hdy]

lemma nudge_x_cases (p d : Point ℚ) :
    (nudge p d).x = 0 ∨ (nudge p d).x = d.x * 0.01 := by
  simp only [nudge]
  split_ifs
  · exact Or.inr rfl
  · exact Or.inr rfl
  · exact Or.inl rfl

lemma nudge_y_cases (p d : Point ℚ) :
    (nudge p d).y = 0 ∨ (nudge p d).y = d.y * 0.01 := by
  simp only [nudge]
  split_ifs
  · exact Or.inr rfl
  · exact Or.inl rfl
  · exact Or.inr rfl

lemma nudge_x_bounds_pos {p d : Point ℚ} (hd : |d.x| < 100) (hdx : 0 < d.x) :
    0 ≤ (nudge p d).x ∧ (nudge p d).x < 1 := by
  have h100 := abs_lt.mp hd
  rcases nudge_x_cases p d with hn | hn <;> rw [hn] <;> constructor <;> nlinarith

lemma nudge_x_bounds_nonpos {p d : Point ℚ} (hd : |d.x| < 100) (hdx : d.x ≤ 0) :
    -1 < (nudge p d).x ∧ (nudge p d).x ≤ 0 := by
  have h100 := abs_lt.mp hd
  rcases nudge_x_cases p d with hn | hn <;> rw [hn] <;> constructor <;> nlinarith

lemma nudge_y_bounds_pos {p d : Point ℚ} (hd : |d.y| < 100) (hdy : 0 < d.y) :
    0 ≤ (nudge p d).y ∧ (nudge p d).y < 1 := by
  have h100 := abs_lt.mp hd
  rcases nudge_y_cases p d with hn | hn <;> rw [hn] <;> constructor <;> nlinarith

lemma nudge_y_bounds_nonpos {p d : Point ℚ} (hd : |d.y| < 100) (hdy : d.y ≤ 0) :
    -1 < (nudge p d).y ∧ (nudge p d).y ≤ 0 := by
  have h100 := abs_lt.mp hd
  rcases nudge_y_cases p d with hn | hn <;> rw [hn] <;> constructor <;> nlinarith

lemma tile_eval {g : Grid} {w h : ℕ} (hg : RectGrid g w h) {a : Point ℚ}
    (hx0 : 0 ≤ trunc a.x) (hxw : trunc a.x < (w : ℤ))
    (hy0 : 0 ≤ trunc a.y) (hyh : trunc a.y < (h : ℤ)) :
    tile a g = some (charToTile (cellChar g (trunc a.y).toNat (trunc a.x).toNat)) := by
  obtain ⟨hlen, hrow⟩ := hg
  have hyn : (trunc a.y).toNat < g.length := by
    rw [hlen]
    omega
  have hxn : (trunc a.x).toNat < (g.get ⟨(trunc a.y).toNat, hyn⟩).length := by
    rw [hrow _ (List.get_mem _ _ _)]
    omega
  show (if 0 ≤ trunc a.x ∧ 0 ≤ trunc a.y then _ else _) = _
  rw [if_pos ⟨hx0, hy0⟩]
  unfold cellChar
  rw [List.get?_eq_get hyn, Option.getD_some, List.get?_eq_get hxn, Option.getD_some]
  show (match (List.get g ⟨(trunc a.y).toNat, hyn⟩).get? (trunc a.x).toNat with
    | some c => some (charToTile c)
    | none => none) = _
  rw [List.get?_eq_get hxn]

lemma cellChar_mem {g : Grid} {iy ix : ℕ} (hiy : iy < g.length)
    (hix : ix < (g.get ⟨iy, hiy⟩).length) :
    cellChar g iy ix ∈ g.get ⟨iy, hiy⟩ := by
  unfold cellChar
  rw [List.get?_eq_get hiy, Option.getD_some, List.get?_eq_get hix, Option.getD_some]
  exact List.get_mem _ _ _

lemma digit_cell {g : Grid} {w h : ℕ} (hg : RectGrid g w h) (hdig : DigitGrid g)
    {iy ix : ℕ} (hiy : iy < h) (hix : ix < w) :
    0 ≤ charToTile (cellChar g iy ix) ∧ charToTile (cellChar g iy ix) ≤ 9 := by
  obtain ⟨hlen, hrow⟩ := hg
  have hiy2 : iy < g.length := by rw [hlen]; exact hiy
  have hix2 : ix < (g.get ⟨iy, hiy2⟩).length := by
    rw [hrow _ (List.get_mem _ _ _)]
    exact hix
  exact hdig _ (List.get_mem _ _ _) _ (cellChar_mem hiy2 hix2)

lemma trunc_idx_bounds {x : ℚ} {n : ℕ} (hn : 0 < n) (h1 : -1 < x) (h2 : x < (n : ℚ)) :
    0 ≤ trunc x ∧ trunc x < (n : ℤ) := by
  rcases le_or_lt 0 x with hx | hx
  · rw [trunc_of_nonneg hx]
    constructor
    · exact Int.le_floor.mpr (by exact_mod_cast hx)
    · exact Int.floor_lt.mpr (by exact_mod_cast h2)
  · rw [trunc_of_neg hx]
    have hup : ⌈x⌉ ≤ 0 := Int.ceil_le.mpr (by exact_mod_cast hx.le)
    have hlow : (-1 : ℤ) < ⌈x⌉ := by
      have := Int.le_ceil x
      have h3 : (-1 : ℚ) < (⌈x⌉ : ℚ) := lt_of_lt_of_le h1 this
      exact_mod_cast h3
    omega

lemma trunc_val_bounds {x : ℚ} {k : ℤ} (hk : 1 ≤ k) (h : trunc x = k) :
    (k : ℚ) ≤ x ∧ x < (k : ℚ) + 1 := by
  rcases le_or_lt 0 x with hx | hx
  · rw [trunc_of_nonneg hx] at h
    constructor
    · rw [← h]
      exact Int.floor_le x
    · rw [← h]
      exact_mod_cast Int.lt_floor_add_one x
  · rw [trunc_of_neg hx] at h
    have : ⌈x⌉ ≤ 0 := Int.ceil_le.mpr (by exact_mod_cast hx.le)
    omega

lemma step_spec {g : Grid} {w h : ℕ} {d : Point ℚ}
    (hg : RectGrid g w h) (hdig : DigitGrid g) (hb : SolidBorder g w h)
    (hdx : |d.x| < 100) (hdy : |d.y| < 100) {p : Point ℚ} (hp : Inv w h d p) :
    ∃ t, tile (add (stepRay p d) (nudge p d)) g = some t ∧ 0 ≤ t ∧ t ≤ 9 ∧
      (t = 0 → Inv w h d (stepRay p d)) := by
  obtain ⟨hP1, hP2, hP3, hP4⟩ := hp
  have htestx : (add (stepRay p d) (nudge p d)).x = (stepRay p d).x + (nudge p d).x := rfl
  have htesty : (add (stepRay p d) (nudge p d)).y = (stepRay p d).y + (nudge p d).y := rfl
  have hwQ : 1 < (w : ℚ) := by
    by_cases hdxp : 0 < d.x
    · obtain ⟨h1, h2⟩ := hP1 hdxp
      linarith
    · obtain ⟨h1, h2⟩ := hP2 (not_lt.mp hdxp)
      linarith
  have hhQ : 1 < (h : ℚ) := by
    by_cases hdyp : 0 < d.y
    · obtain ⟨h1, h2⟩ := hP3 hdyp
      linarith
    · obtain ⟨h1, h2⟩ := hP4 (not_lt.mp hdyp)
      linarith
  have hwN : 1 < w := by exact_mod_cast hwQ
  have hhN : 1 < h := by exact_mod_cast hhQ
  have hxR : -1 < (stepRay p d).x + (nudge p d).x ∧
      (stepRay p d).x + (nudge p d).x < (w : ℚ) := by
    by_cases hdxp : 0 < d.x
    · obtain ⟨hp1, hp2⟩ := hP1 hdxp
      have hr1 := stepRay_x_lower_pos hdxp (p := p)
      have hr2 := stepRay_x_upper_pos hdxp (p := p)
      have hn := nudge_x_bounds_pos hdx hdxp (p := p)
      have hfl : ((⌊p.x⌋ + 1 : ℤ) : ℚ) ≤ (w : ℚ) - 1 := by
        have h2 : (⌊p.x⌋ : ℚ) < (w : ℚ) - 1 := lt_of_le_of_lt (Int.floor_le p.x) hp2
        have h3 : ⌊p.x⌋ < (w : ℤ) - 1 := by exact_mod_cast h2
        have h4 : (⌊p.x⌋ + 1 : ℤ) ≤ (w : ℤ) - 1 := by omega
        exact_mod_cast h4
      exact ⟨by linarith [hn.1], by linarith [hn.2]⟩
    · obtain ⟨hp1, hp2⟩ := hP2 (not_lt.mp hdxp)
      have hr1 := stepRay_x_lower_nonpos hdxp (p := p)
      have hr2 := stepRay_x_upper_nonpos hdxp (p := p)
      have hn := nudge_x_bounds_nonpos hdx (not_lt.mp hdxp) (p := p)
      have hcl : (0 : ℚ) ≤ ((⌈p.x⌉ - 1 : ℤ) : ℚ) := by
        have h2 : (1 : ℚ) ≤ (⌈p.x⌉ : ℚ) := le_trans hp1 (Int.le_ceil p.x)
        have h3 : (1 : ℤ) ≤ ⌈p.x⌉ := by exact_mod_cast h2
        have h4 : (0 : ℤ) ≤ ⌈p.x⌉ - 1 := by omega
        exact_mod_cast h4
      exact ⟨by linarith [hn.1], by linarith [hn.2]⟩
  have hyR : -1 < (stepRay p d).y + (nudge p d).y ∧
      (stepRay p d).y + (nudge p d).y < (h : ℚ) := by
    by_cases hdyp : 0 < d.y
    · obtain ⟨hp1, hp2⟩ := hP3 hdyp
      have hr1 := stepRay_y_lower_pos hdyp (p := p)
      have hr2 := stepRay_y_upper_pos hdyp (p := p)
      have hn := nudge_y_bounds_pos hdy hdyp (p := p)
      have hfl : ((⌊p.y⌋ + 1 : ℤ) : ℚ) ≤ (h : ℚ) - 1 := by
        have h2 : (⌊p.y⌋ : ℚ) < (h : ℚ) - 1 := lt_of_le_of_lt (Int.floor_le p.y) hp2
        have h3 : ⌊p.y⌋ < (h : ℤ) - 1 := by exact_mod_cast h2
        have h4 : (⌊p.y⌋ + 1 : ℤ) ≤ (h : ℤ) - 1 := by omega
        exact_mod_cast h4
      exact ⟨by linarith [hn.1], by linarith [hn.2]⟩
    · obtain ⟨hp1, hp2⟩ := hP4 (not_lt.mp hdyp)
      have hr1 := stepRay_y_lower_nonpos hdyp (p := p)
      have hr2 := stepRay_y_upper_nonpos hdyp (p := p)
      have hn := nudge_y_bounds_nonpos hdy (not_lt.mp hdyp) (p := p)
      have hcl : (0 : ℚ) ≤ ((⌈p.y⌉ - 1 : ℤ) : ℚ) := by
        have h2 : (1 : ℚ) ≤ (⌈p.y⌉ : ℚ) := le_trans hp1 (Int.le_ceil p.y)
        have h3 : (1 : ℤ) ≤ ⌈p.y⌉ := by exact_mod_cast h2
        have h4 : (0 : ℤ) ≤ ⌈p.y⌉ - 1 := by omega
        exact_mod_cast h4
      exact ⟨by linarith [hn.1], by linarith [hn.2]⟩
  obtain ⟨hix0, hixw⟩ := trunc_idx_bounds (show 0 < w by omega)
    (htestx ▸ hxR.1) (htestx ▸ hxR.2)
  obtain ⟨hiy0, hiyh⟩ := trunc_idx_bounds (show 0 < h by omega)
    (htesty ▸ hyR.1) (htesty ▸ hyR.2)
  have hixN : (trunc (add (stepRay p d) (nudge p d)).x).toNat < w := by omega
  have hiyN : (trunc (add (stepRay p d) (nudge p d)).y).toNat < h := by omega
  have hteq := tile_eval hg hix0 hixw hiy0 hiyh
  refine ⟨_, hteq, (digit_cell hg hdig hiyN hixN).1, (digit_cell hg hdig hiyN hixN).2, ?_⟩
  intro ht0
  have hnb : ¬((trunc (add (stepRay p d) (nudge p d)).y).toNat = 0 ∨
      (trunc (add (stepRay p d) (nudge p d)).y).toNat = h - 1 ∨
      (trunc (add (stepRay p d) (nudge p d)).x).toNat = 0 ∨
      (trunc (add (stepRay p d) (nudge p d)).x).toNat = w - 1) :=
    fun hcon => hb _ hiyN _ hixN hcon ht0
  push_neg at hnb
  obtain ⟨hnb1, hnb2, hnb3, hnb4⟩ := hnb
  have hixlow : 1 ≤ (trunc (add (stepRay p d) (nudge p d)).x).toNat := by omega
  have hixhigh : (trunc (add (stepRay p d) (nudge p d)).x).toNat ≤ w - 2 := by omega
  have hiylow : 1 ≤ (trunc (add (stepRay p d) (nudge p d)).y).toNat := by omega
  have hiyhigh : (trunc (add (stepRay p d) (nudge p d)).y).toNat ≤ h - 2 := by omega
  have hvx := trunc_val_bounds (k := trunc (add (stepRay p d) (nudge p d)).x)
    (by omega) rfl
  have hvy := trunc_val_bounds (k := trunc (add (stepRay p d) (nudge p d)).y)
    (by omega) rfl
  have hex1 : (1 : ℚ) ≤ (add (stepRay p d) (nudge p d)).x := by
    have h1 : (1 : ℤ) ≤ trunc (add (stepRay p d) (nudge p d)).x := by omega
    have h2 : ((1 : ℤ) : ℚ) ≤ ((trunc (add (stepRay p d) (nudge p d)).x : ℤ) : ℚ) := by
      exact_mod_cast h1
    calc (1 : ℚ) = ((1 : ℤ) : ℚ) := by norm_num
      _ ≤ _ := h2
      _ ≤ _ := hvx.1
  have hex2 : (add (stepRay p d) (nudge p d)).x < (w : ℚ) - 1 := by
    have h1 : trunc (add (stepRay p d) (nudge p d)).x + 1 ≤ (w : ℤ) - 1 := by omega
    have h2 : ((trunc (add (stepRay p d) (nudge p d)).x : ℤ) : ℚ) + 1 ≤ (w : ℚ) - 1 := by
      exact_mod_cast h1
    linarith [hvx.2]
  have hey1 : (1 : ℚ) ≤ (add (stepRay p d) (nudge p d)).y := by
    have h1 : (1 : ℤ) ≤ trunc (add (stepRay p d) (nudge p d)).y := by omega
    have h2 : ((1 : ℤ) : ℚ) ≤ ((trunc (add (stepRay p d) (nudge p d)).y : ℤ) : ℚ) := by
      exact_mod_cast h1
    calc (1 : ℚ) = ((1 : ℤ) : ℚ) := by norm_num
      _ ≤ _ := h2
      _ ≤ _ := hvy.1
  have hey2 : (add (stepRay p d) (nudge p d)).y < (h : ℚ) - 1 := by
    have h1 : trunc (add (stepRay p d) (nudge p d)).y + 1 ≤ (h : ℤ) - 1 := by omega
    have h2 : ((trunc (add (stepRay p d) (nudge p d)).y : ℤ) : ℚ) + 1 ≤ (h : ℚ) - 1 := by
      exact_mod_cast h1
    linarith [hvy.2]
  rw [htestx] at hex1 hex2
  rw [htesty] at hey1 hey2
  refine ⟨?_, ?_, ?_, ?_⟩
  · intro hdxp
    have hn := nudge_x_bounds_pos hdx hdxp (p := p)
    exact ⟨by linarith [hn.2], by linarith [hn.1]⟩
  · intro hdxn
    have hn := nudge_x_bounds_nonpos hdx hdxn (p := p)
    exact ⟨by linarith [hn.2], by linarith [hn.1]⟩
  · intro hdyp
    have hn := nudge_y_bounds_pos hdy hdyp (p := p)
    exact ⟨by linarith [hn.2], by linarith [hn.1]⟩
  · intro hdyn
    have hn := nudge_y_bounds_nonpos hdy hdyn (p := p)
    exact ⟨by linarith [hn.2], by linarith [hn.1]⟩

lemma mu_le_of_inv {w h : ℕ} {d p : Point ℚ} (hp : Inv w h d p) :
    mu d p ≤ (w : ℤ) + h - 4 := by
  obtain ⟨hP1, hP2, hP3, hP4⟩ := hp
  have hx : phi d.x p.x ≤ (w : ℤ) - 2 := by
    unfold phi
    by_cases hdxp : 0 < d.x
    · rw [if_pos hdxp]
      obtain ⟨h1, h2⟩ := hP1 hdxp
      have h3 : (⌊p.x⌋ : ℚ) < (w : ℚ) - 1 := lt_of_le_of_lt (Int.floor_le p.x) h2
      have h4 : ⌊p.x⌋ < (w : ℤ) - 1 := by exact_mod_cast h3
      omega
    · rw [if_neg hdxp]
      obtain ⟨h1, h2⟩ := hP2 (not_lt.mp hdxp)
      have h3 : (1 : ℚ) ≤ (⌈p.x⌉ : ℚ) := le_trans h1 (Int.le_ceil p.x)
      have h4 : (1 : ℤ) ≤ ⌈p.x⌉ := by exact_mod_cast h3
      have h5 : (1 : ℚ) < (w : ℚ) := lt_of_le_of_lt h1 h2
      have h6 : (1 : ℤ) < (w : ℤ) := by exact_mod_cast h5
      omega
  have hy : phi d.y p.y ≤ (h : ℤ) - 2 := by
    unfold phi
    by_cases hdyp : 0 < d.y
    · rw [if_pos hdyp]
      obtain ⟨h1, h2⟩ := hP3 hdyp
      have h3 : (⌊p.y⌋ : ℚ) < (h : ℚ) - 1 := lt_of_le_of_lt (Int.floor_le p.y) h2
      have h4 : ⌊p.y⌋ < (h : ℤ) - 1 := by exact_mod_cast h3
      omega
    · rw [if_neg hdyp]
      obtain ⟨h1, h2⟩ := hP4 (not_lt.mp hdyp)
      have h3 : (1 : ℚ) ≤ (⌈p.y⌉ : ℚ) := le_trans h1 (Int.le_ceil p.y)
      have h4 : (1 : ℤ) ≤ ⌈p.y⌉ := by exact_mod_cast h3
      have h5 : (1 : ℚ) < (h : ℚ) := lt_of_le_of_lt h1 h2
      have h6 : (1 : ℤ) < (h : ℤ) := by exact_mod_cast h5
      omega
  unfold mu
  omega

lemma mu_ge_of_interior {w h : ℕ} (d : Point ℚ) {p : Point ℚ}
    (hint : Interior w h p) : -(w : ℤ) - h + 2 ≤ mu d p := by
  obtain ⟨h1, h2, h3, h4⟩ := hint
  have hx : -(w : ℤ) + 1 ≤ phi d.x p.x := by
    unfold phi
    by_cases hdxp : 0 < d.x
    · rw [if_pos hdxp]
      have h5 : (1 : ℤ) ≤ ⌊p.x⌋ := Int.le_floor.mpr (by exact_mod_cast h1.le)
      have h6 : (1 : ℚ) < (w : ℚ) - 1 := lt_trans h1 h2
      have h7 : (2 : ℤ) ≤ (w : ℤ) := by exact_mod_cast (by linarith : (2 : ℚ) ≤ (w : ℚ))
      omega
    · rw [if_neg hdxp]
      have h5 : ⌈p.x⌉ ≤ (w : ℤ) - 1 := Int.ceil_le.mpr (by push_cast; linarith)
      omega
  have hy : -(h : ℤ) + 1 ≤ phi d.y p.y := by
    unfold phi
    by_cases hdyp : 0 < d.y
    · rw [if_pos hdyp]
      have h5 : (1 : ℤ) ≤ ⌊p.y⌋ := Int.le_floor.mpr (by exact_mod_cast h3.le)
      have h6 : (1 : ℚ) < (h : ℚ) - 1 := lt_trans h3 h4
      have h7 : (2 : ℤ) ≤ (h : ℤ) := by exact_mod_cast (by linarith : (2 : ℚ) ≤ (h : ℚ))
      omega
    · rw [if_neg hdyp]
      have h5 : ⌈p.y⌉ ≤ (h : ℤ) - 1 := Int.ceil_le.mpr (by push_cast; linarith)
      omega
  unfold mu
  omega

lemma inv_of_interior {w h : ℕ} (d : Point ℚ) {p : Point ℚ}
    (hint : Interior w h p) : Inv w h d p := by
  obtain ⟨h1, h2, h3, h4⟩ := hint
  exact ⟨fun _ => ⟨by linarith, h2⟩, fun _ => ⟨by linarith, by linarith⟩,
    fun _ => ⟨by linarith, h4⟩, fun _ => ⟨by linarith, by linarith⟩⟩

lemma castFuel_succeeds {g : Grid} {w h : ℕ} {d : Point ℚ}
    (hg : RectGrid g w h) (hdig : DigitGrid g) (hb : SolidBorder g w h)
    (hdx : |d.x| < 100) (hdy : |d.y| < 100) :
    ∀ (fuel : ℕ) (p : Point ℚ), Inv w h d p →
      (w : ℤ) + h - 4 - mu d p < (fuel : ℤ) →
      ∃ hit, castFuel fuel p d g = some hit ∧ 0 < hit.tile := by
  intro fuel
  induction fuel with
  | zero =>
    intro p hp hm
    have := mu_le_of_inv hp
    omega
  | succ fuel ih =>
    intro p hp hm
    obtain ⟨t, hteq, ht0, ht9, hre⟩ := step_spec hg hdig hb hdx hdy hp
    simp only [castFuel]
    rw [hteq]
    by_cases ht : t = 0
    · subst ht
      have hre2 := hre rfl
      have hmu := mu_step p d
      obtain ⟨hit, hh1, hh2⟩ := ih (stepRay p d) hre2 (by push_cast at hm ⊢; omega)
      refine ⟨hit, ?_, hh2⟩
      show (if (0 : ℤ) ≠ 0 then some ⟨0, stepRay p d⟩
        else castFuel fuel (stepRay p d) d g) = some hit
      rw [if_neg (by norm_num)]
      exact hh1
    · refine ⟨⟨t, stepRay p d⟩, ?_, show (0 : ℤ) < t by omega⟩
      show (if t ≠ 0 then some (Hit.mk t (stepRay p d))
        else castFuel fuel (stepRay p d) d g) = some (Hit.mk t (stepRay p d))
      rw [if_pos ht]

/-- C1 (amended): on every rectangular digit grid whose outer border is
entirely non-empty, a cast from an origin strictly inside the map interior
along a non-zero direction reaches a non-empty tile within `2 * (w + h)` grid
steps and returns its tile id `> 0`, provided both direction components are
below 100 in absolute value, so that the `0.01 * direction` sampling nudge
stays within one grid cell and cannot jump over the border (the claim as
stated fails for larger directions, see the counterexample). -/
theorem cast_hits_wall (g : Grid) (w h : ℕ) (p d : Point ℚ)
    (hg : RectGrid g w h) (hdig : DigitGrid g) (hb : SolidBorder g w h)
    (hint : Interior w h p) (_hd0 : d ≠ ⟨0, 0⟩)
    (hdx : |d.x| < 100) (hdy : |d.y| < 100) :
    ∃ hit, castFuel (2 * (w + h)) p d g = some hit ∧ 0 < hit.tile := by
  apply castFuel_succeeds hg hdig hb hdx hdy
  · exact inv_of_interior d hint
  · have h1 := mu_ge_of_interior d hint
    push_cast
    omega

/-- Witness for C1 on the built-in map: casting from the spawn point along
`(1, 1)` succeeds with a positive tile id. -/
theorem cast_hits_wall_witness :
    ∃ hit, castFuel (2 * (45 + 7)) ⟨7/2, 7/2⟩ ⟨1, 1⟩ walling = some hit ∧
      0 < hit.tile :=
  cast_hits_wall walling 45 7 ⟨7/2, 7/2⟩ ⟨1, 1⟩ (by decide) (by decide) (by decide)
    (by constructor <;> norm_num [Interior])
    (by intro hc; injection hc with hc1 hc2; norm_num at hc1)
    (by norm_num) (by norm_num)

lemma sh_cex : sh (⟨7/2, 7/2⟩ : Point ℚ) ⟨1, 300⟩ = ⟨4, 307/2⟩ := by
  have hx : (sh (⟨7/2, 7/2⟩ : Point ℚ) ⟨1, 300⟩).x = 4 := by
    rw [sh_x_pos (by norm_num)]
    norm_num
  have hy2 : (sh (⟨7/2, 7/2⟩ : Point ℚ) ⟨1, 300⟩).y = 307/2 := by
    rw [sh_y, hx]
    norm_num [slope]
  cases heq : sh (⟨7/2, 7/2⟩ : Point ℚ) ⟨1, 300⟩ with
  | mk a b =>
    rw [heq] at hx hy2
    simp only at hx hy2
    rw [hx, hy2]

lemma sv_cex : sv (⟨7/2, 7/2⟩ : Point ℚ) ⟨1, 300⟩ = ⟨2101/600, 4⟩ := by
  have hy2 : (sv (⟨7/2, 7/2⟩ : Point ℚ) ⟨1, 300⟩).y = 4 := by
    rw [sv_y_pos (by norm_num)]
    norm_num
  have hx : (sv (⟨7/2, 7/2⟩ : Point ℚ) ⟨1, 300⟩).x = 2101/600 := by
    rw [sv_x, hy2]
    norm_num [slope]
  cases heq : sv (⟨7/2, 7/2⟩ : Point ℚ) ⟨1, 300⟩ with
  | mk a b =>
    rw [heq] at hx hy2
    simp only at hx hy2
    rw [hx, hy2]

lemma stepRay_cex : stepRay (⟨7/2, 7/2⟩ : Point ℚ) ⟨1, 300⟩ = ⟨2101/600, 4⟩ := by
  unfold stepRay
  rw [sh_cex, sv_cex]
  rw [if_neg (by norm_num [magSq, sub])]

lemma nudge_cex : nudge (⟨7/2, 7/2⟩ : Point ℚ) ⟨1, 300⟩ = ⟨0, 3⟩ := by
  simp only [nudge]
  rw [sh_cex, sv_cex, stepRay_cex]
  rw [if_neg (by norm_num [magSq, sub])]
  rw [if_neg (by norm_num [dec, trunc])]
  norm_num [mul]

lemma tile_cex : tile (⟨2101/600, 7⟩ : Point ℚ) walling = none := by
  unfold tile
  have hx : trunc (Point.mk (2101/600 : ℚ) 7).x = 3 := by
    rw [trunc_of_nonneg (by norm_num)]
    norm_num
  have hy : trunc (Point.mk (2101/600 : ℚ) 7).y = 7 := by
    rw [trunc_of_nonneg (by norm_num)]
    norm_num
  simp only [hx, hy]
  decide

lemma castFuel_cex_none :
    ∀ fuel, castFuel fuel ⟨7/2, 7/2⟩ ⟨1, 300⟩ walling = none := by
  intro fuel
  cases fuel with
  | zero => rfl
  | succ fuel =>
    simp only [castFuel]
    rw [stepRay_cex, nudge_cex]
    rw [show add (⟨2101/600, 4⟩ : Point ℚ) ⟨0, 3⟩ = ⟨2101/600, 7⟩ by
      simp only [add]; norm_num]
    rw [tile_cex]

/-- C1 counterexample: the origin `(3.5, 3.5)` is strictly inside the
interior of the built-in map (whose wall border is entirely non-empty) and
the direction `(1, 300)` is non-zero, yet the cast never returns a hit: the
very first nudged sample lies at row 7, outside the 7-row wall grid (an
out-of-bounds read, undefined behavior in C).  The claim fails for
unrestricted non-zero directions. -/
theorem cast_claim_fails_for_large_direction :
    Interior 45 7 ⟨7/2, 7/2⟩ ∧ (Point.mk (1 : ℚ) 300) ≠ ⟨0, 0⟩ ∧
      SolidBorder walling 45 7 ∧
      ¬ castReturnsPositive ⟨7/2, 7/2⟩ ⟨1, 300⟩ walling := by
  refine ⟨by constructor <;> norm_num [Interior],
    by intro hc; injection hc with hc1 hc2; norm_num at hc1, by decide, ?_⟩
  rintro ⟨fuel, hit, heq, -⟩
  rw [castFuel_cex_none fuel] at heq
  exact Option.noConfusion heq

end LW
